import Mathlib

/-!
Verification of the weekly-shift recurrence resolver and its line parser
(`src/main.rs`).  The embedding works over:

* absolute instants: `Int`, seconds since 1970-01-01T00:00:00Z;
* civil dates: `Int`, days since 1970-01-01 (which was a Thursday);
* civil times of day: `Int` seconds since midnight (chrono `NaiveTime`,
  second precision — the sub-second component is not exercised here);
* time zones: a base UTC offset plus a finite list of transitions
  `(utcInstant, newOffsetSeconds)`, the representation backing chrono-tz's
  offset lookup.  Local-time resolution collects every instant whose civil
  projection matches and `.earliest()` takes the least one, exactly the
  semantics of chrono's `LocalResult::earliest`.
-/

namespace Shifty

/-! ### Calendar arithmetic -/

/-- Days since 1970-01-01 for a proleptic-Gregorian `(y, m, d)`
(Howard Hinnant's `days_from_civil`, the arithmetic underlying chrono's
date encoding). -/
def daysFromCivil (y m d : Int) : Int :=
  let y' := if m ≤ 2 then y - 1 else y
  let era := y' / 400
  let yoe := y' - era * 400
  let mp := if m > 2 then m - 3 else m + 9
  let doy := (153 * mp + 2) / 5 + d - 1
  let doe := yoe * 365 + yoe / 4 - yoe / 100 + doy
  era * 146097 + doe - 719468

/-- Civil year containing day number `z` (Hinnant's `civil_from_days`,
year component). -/
def yearOf (z : Int) : Int :=
  let z' := z + 719468
  let era := z' / 146097
  let doe := z' - era * 146097
  let yoe :=
    (doe - doe / 1460 + doe / 36524 - doe / 146096) / 365
  let y := yoe + era * 400
  let doy := doe - (365 * yoe + yoe / 4 - yoe / 100)
  let mp := (5 * doy + 2) / 153
  let m := mp + (if mp < 10 then 3 else -9)
  if m ≤ 2 then y + 1 else y

/-- The seven ISO weekdays, as in chrono. -/
inductive Weekday where
  | mon | tue | wed | thu | fri | sat | sun
  deriving DecidableEq, Repr

/-- Chrono's `Weekday::num_days_from_monday`. -/
def wdNum : Weekday → Int
  | .mon => 0
  | .tue => 1
  | .wed => 2
  | .thu => 3
  | .fri => 4
  | .sat => 5
  | .sun => 6

/-- Weekday of a day number; day 0 (1970-01-01) was a Thursday, so
`(d + 3) % 7` counts days from Monday. -/
def numFromMonday (d : Int) : Int := (d + 3) % 7

/-- Weekday of day number `d`. -/
def weekdayOf (d : Int) : Weekday :=
  if numFromMonday d = 0 then .mon
  else if numFromMonday d = 1 then .tue
  else if numFromMonday d = 2 then .wed
  else if numFromMonday d = 3 then .thu
  else if numFromMonday d = 4 then .fri
  else if numFromMonday d = 5 then .sat
  else .sun

/-- The Monday opening the ISO week (Monday-aligned week) of day `d`. -/
def mondayOf (d : Int) : Int := d - numFromMonday d

/-- ISO week-numbering year of day `d`: the civil year containing the
Thursday of `d`'s week (ISO 8601; chrono `NaiveDate::iso_week().year()`). -/
def isoYearOf (d : Int) : Int := yearOf (mondayOf d + 3)

/-- ISO week number of day `d` within `isoYearOf d`
(chrono `NaiveDate::iso_week().week()`). -/
def isoWeekOf (d : Int) : Int :=
  (mondayOf d + 3 - daysFromCivil (isoYearOf d) 1 1) / 7 + 1

/-- First representable chrono `NaiveDate` (-262143-01-01). -/
def minDay : Int := daysFromCivil (-262143) 1 1

/-- Last representable chrono `NaiveDate` (262142-12-31). -/
def maxDay : Int := daysFromCivil 262142 12 31

/-- Model of `NaiveDate::from_isoywd_opt` by its contract: the unique
in-range date whose ISO week-date triple is `(y, w, wd)`, or `none` when no
such date exists (week number out of range for that ISO year, or the date
not representable).  The candidate is built from the Monday of the week
containing January 4 (always in ISO week 1). -/
def fromIsoywd (y w : Int) (wd : Weekday) : Option Int :=
  let day := mondayOf (daysFromCivil y 1 4) + 7 * (w - 1) + wdNum wd
  if isoYearOf day = y ∧ isoWeekOf day = w ∧ minDay ≤ day ∧ day ≤ maxDay then
    some day
  else none

/-- Model of `NaiveDate::checked_sub_days`: subtraction succeeding exactly when the
result stays in chrono's representable range. -/
def checkedSubDays (d n : Int) : Option Int :=
  if minDay ≤ d - n ∧ d - n ≤ maxDay then some (d - n) else none

/-! ### Time zones -/

/-- A time zone: UTC offset (seconds) before the first transition, plus
transitions `(utcInstant, newOffset)` in increasing instant order — the
data chrono-tz compiles from the IANA database. -/
structure TzModel where
  base : Int
  trans : List (Int × Int)
  deriving DecidableEq, Repr

/-- Offset lookup by UTC instant: scan the transitions, keeping the offset
of the last transition at or before `u`. -/
def offsetFrom (u : Int) : Int → List (Int × Int) → Int
  | acc, [] => acc
  | acc, (t, o) :: rest => if u < t then acc else offsetFrom u o rest

/-- UTC offset of zone `z` in effect at instant `u`. -/
def offsetAt (z : TzModel) (u : Int) : Int := offsetFrom u z.base z.trans

/-- Civil (local) time shown by zone `z` at instant `u`, in seconds on the
naive local timeline. -/
def civilSecs (z : TzModel) (u : Int) : Int := u + offsetAt z u

/-- Model of `DateTime::date_naive` after `with_timezone`: the civil date (day
number) shown by zone `z` at instant `u`. -/
def dateNaive (z : TzModel) (u : Int) : Int := (civilSecs z u) / 86400

/-- Civil time of day shown by zone `z` at instant `u`. -/
def timeOfDayIn (z : TzModel) (u : Int) : Int := (civilSecs z u) % 86400

/-- Naive local timeline seconds of civil date `day` at time of day `tod`. -/
def naiveOf (day tod : Int) : Int := 86400 * day + tod

/-- Least element of a list of instants. -/
def listMin : List Int → Option Int
  | [] => none
  | a :: rest =>
    match listMin rest with
    | none => some a
    | some b => some (min a b)

/-- All instants at which zone `z` shows local time `L`: for each offset the
zone ever uses, `L - o` qualifies iff that offset is the one in force
there.  This is the full solution set of `u + offsetAt z u = L`. -/
def localCands (z : TzModel) (L : Int) : List Int :=
  (z.base :: z.trans.map Prod.snd).filterMap fun o =>
    if offsetAt z (L - o) = o then some (L - o) else none

/-- Model of `NaiveDateTime::and_local_timezone(tz).earliest()`: the least instant
showing local time `L` in zone `z` (`none` in a DST gap; the earlier of the
two instants in a DST fold). -/
def localEarliest (z : TzModel) (L : Int) : Option Int := listMin (localCands z L)

/-! ### The resolver (`WeeklyShift` and `prev_start`) -/

/-- The `WeeklyShift` descriptor: weekday, start time of day (seconds),
start zone. -/
structure WeeklyShift where
  weekday : Weekday
  start : Int
  startTz : TzModel
  deriving DecidableEq, Repr

/-- Model of `WeeklyShift::prev_start`: project the reference instant into the shift
zone, rebuild the shift's date in that civil week from the ISO week-date
triple, resolve it with the earliest-instant policy, and either return that
candidate (when it is not after the reference) or re-resolve the date seven
calendar days earlier.  `none` models the `unwrap` panics of the source. -/
def prevStart (ws : WeeklyShift) (dt : Int) : Option Int := do
  let dateInShiftTz := dateNaive ws.startTz dt
  let curDate ←
    fromIsoywd (isoYearOf dateInShiftTz) (isoWeekOf dateInShiftTz) ws.weekday
  let cur ← localEarliest ws.startTz (naiveOf curDate ws.start)
  if cur ≤ dt then
    pure cur
  else do
    let prevDate ← checkedSubDays curDate 7
    localEarliest ws.startTz (naiveOf prevDate ws.start)

/-- An instant whose projection into the shift's zone shows exactly the
shift's weekday and time of day. -/
def matchesShift (ws : WeeklyShift) (x : Int) : Prop :=
  weekdayOf (dateNaive ws.startTz x) = ws.weekday ∧
    timeOfDayIn ws.startTz x = ws.start

instance (ws : WeeklyShift) (x : Int) : Decidable (matchesShift ws x) := by
  unfold matchesShift; infer_instance

/-! ### Concrete zones (fragments of the IANA table used by the repository) -/

/-- Zone `Etc/UTC`: offset 0 forever. -/
def utcTz : TzModel := ⟨0, []⟩

/-- Zone `Europe/London`, 1999–2001 fragment: GMT (+0) with BST (+1h) between the
last Sundays of March and October; EU transitions happen at 01:00 UTC. -/
def londonTz : TzModel :=
  ⟨0,
    [(daysFromCivil 2000 3 26 * 86400 + 3600, 3600),
     (daysFromCivil 2000 10 29 * 86400 + 3600, 0),
     (daysFromCivil 2001 3 25 * 86400 + 3600, 3600),
     (daysFromCivil 2001 10 28 * 86400 + 3600, 0)]⟩

/-- Zone `CET`, year-2000 fragment: +1h, +2h in summer 2000. -/
def cetTz : TzModel :=
  ⟨3600,
    [(daysFromCivil 2000 3 26 * 86400 + 3600, 7200),
     (daysFromCivil 2000 10 29 * 86400 + 3600, 3600)]⟩

/-- Zone `EST`: fixed -5h, no DST. -/
def estTz : TzModel := ⟨-18000, []⟩

end Shifty

namespace Shifty

/-! ### Basic arithmetic facts -/

lemma timeOfDayIn_nonneg (z : TzModel) (u : Int) : 0 ≤ timeOfDayIn z u :=
  Int.emod_nonneg _ (by norm_num)

lemma timeOfDayIn_lt (z : TzModel) (u : Int) : timeOfDayIn z u < 86400 :=
  Int.emod_lt_of_pos _ (by norm_num)

lemma civilSecs_decomp (z : TzModel) (u : Int) :
    civilSecs z u = 86400 * dateNaive z u + timeOfDayIn z u := by
  unfold dateNaive timeOfDayIn
  exact (Int.ediv_add_emod _ _).symm

lemma numFromMonday_nonneg (d : Int) : 0 ≤ numFromMonday d :=
  Int.emod_nonneg _ (by norm_num)

lemma numFromMonday_lt (d : Int) : numFromMonday d < 7 :=
  Int.emod_lt_of_pos _ (by norm_num)

lemma wdNum_nonneg (wd : Weekday) : 0 ≤ wdNum wd := by cases wd <;> simp [wdNum]

lemma wdNum_lt (wd : Weekday) : wdNum wd < 7 := by cases wd <;> simp [wdNum]

lemma weekdayOf_eq_iff (d : Int) (wd : Weekday) :
    weekdayOf d = wd ↔ numFromMonday d = wdNum wd := by
  have h0 := numFromMonday_nonneg d
  have h1 := numFromMonday_lt d
  unfold weekdayOf
  cases wd <;> split_ifs <;>
    (first | (simp_all [wdNum]; done) | (simp_all [wdNum]; omega))

lemma emod_decomp (a b : Int) (hb : 0 < b) :
    ∃ q, a = b * q + a % b ∧ 0 ≤ a % b ∧ a % b < b :=
  ⟨a / b, by rw [Int.ediv_add_emod a b],
    Int.emod_nonneg a (by omega), Int.emod_lt_of_pos a hb⟩

lemma emod_mul_add (b q k : Int) (h0 : 0 ≤ k) (h1 : k < b) :
    (b * q + k) % b = k := by
  rw [Int.add_comm, Int.add_mul_emod_self_left, Int.emod_eq_of_lt h0 h1]

lemma mondayOf_mod (d : Int) : (mondayOf d + 3) % 7 = 0 := by
  obtain ⟨q, hq, h0, h1⟩ := emod_decomp (d + 3) 7 (by norm_num)
  unfold mondayOf numFromMonday
  have h2 : d - (d + 3) % 7 + 3 = 7 * q + 0 := by omega
  rw [h2, emod_mul_add 7 q 0 (by norm_num) (by norm_num)]

lemma numFromMonday_mondayOf_add (d k : Int) (h0 : 0 ≤ k) (h1 : k < 7) :
    numFromMonday (mondayOf d + k) = k := by
  obtain ⟨q, hq, hr0, hr1⟩ := emod_decomp (d + 3) 7 (by norm_num)
  unfold mondayOf numFromMonday
  have h2 : d - (d + 3) % 7 + k + 3 = 7 * q + k := by omega
  rw [h2, emod_mul_add 7 q k h0 h1]

lemma mondayOf_add (d k : Int) (h0 : 0 ≤ k) (h1 : k < 7) :
    mondayOf (mondayOf d + k) = mondayOf d := by
  have h2 := numFromMonday_mondayOf_add d k h0 h1
  have h3 : mondayOf (mondayOf d + k) =
      (mondayOf d + k) - numFromMonday (mondayOf d + k) := rfl
  rw [h3, h2]
  ring

/-! ### `listMin` and local-time resolution -/

lemma listMin_mem : ∀ {l : List Int} {m : Int}, listMin l = some m → m ∈ l := by
  intro l
  induction l with
  | nil => intro m h; simp [listMin] at h
  | cons a rest ih =>
    intro m h
    unfold listMin at h
    cases hr : listMin rest with
    | none => rw [hr] at h; simp at h; simp [h]
    | some b =>
      rw [hr] at h
      simp at h
      rcases min_cases a b with ⟨hm, _⟩ | ⟨hm, _⟩
      · rw [hm] at h; simp [h]
      · rw [hm] at h; right; exact h ▸ ih hr

lemma listMin_eq_none : ∀ {l : List Int}, listMin l = none → l = [] := by
  intro l h
  cases l with
  | nil => rfl
  | cons a rest =>
    exfalso
    unfold listMin at h
    cases hr : listMin rest with
    | none => rw [hr] at h; simp at h
    | some b => rw [hr] at h; simp at h

lemma listMin_le : ∀ {l : List Int} {m : Int}, listMin l = some m →
    ∀ x ∈ l, m ≤ x := by
  intro l
  induction l with
  | nil => intro m h; simp [listMin] at h
  | cons a rest ih =>
    intro m h x hx
    unfold listMin at h
    cases hr : listMin rest with
    | none =>
      rw [hr] at h
      simp at h
      rw [listMin_eq_none hr] at hx
      simp at hx
      omega
    | some b =>
      rw [hr] at h
      simp at h
      cases hx with
      | head => rw [← h]; exact min_le_left _ _
      | tail _ hx' =>
        calc m ≤ b := by rw [← h]; exact min_le_right _ _
        _ ≤ x := ih hr x hx'

lemma listMin_isSome {l : List Int} (h : l ≠ []) : (listMin l).isSome := by
  cases l with
  | nil => simp at h
  | cons a rest => unfold listMin; cases listMin rest <;> simp

lemma offsetFrom_mem (u : Int) :
    ∀ (b : Int) (l : List (Int × Int)), offsetFrom u b l ∈ b :: l.map Prod.snd := by
  intro b l
  induction l generalizing b with
  | nil => simp [offsetFrom]
  | cons p rest ih =>
    obtain ⟨t, o⟩ := p
    unfold offsetFrom
    split
    · simp
    · have := ih o
      simp at this ⊢
      tauto

lemma offsetAt_mem (z : TzModel) (u : Int) :
    offsetAt z u ∈ z.base :: z.trans.map Prod.snd := offsetFrom_mem u z.base z.trans

lemma mem_localCands {z : TzModel} {L v : Int} (hv : civilSecs z v = L) :
    v ∈ localCands z L := by
  unfold localCands
  rw [List.mem_filterMap]
  refine ⟨offsetAt z v, offsetAt_mem z v, ?_⟩
  have hv' : L - offsetAt z v = v := by unfold civilSecs at hv; omega
  rw [hv']
  simp

lemma localCands_sound {z : TzModel} {L u : Int} (hu : u ∈ localCands z L) :
    civilSecs z u = L := by
  unfold localCands at hu
  rw [List.mem_filterMap] at hu
  obtain ⟨o, _, ho⟩ := hu
  unfold civilSecs
  split at ho
  · rename_i heq
    simp only [Option.some.injEq] at ho
    subst ho
    rw [heq]
    ring
  · simp at ho

lemma localEarliest_civil {z : TzModel} {L u : Int}
    (h : localEarliest z L = some u) : civilSecs z u = L :=
  localCands_sound (listMin_mem h)

lemma localEarliest_le {z : TzModel} {L u v : Int}
    (h : localEarliest z L = some u) (hv : civilSecs z v = L) : u ≤ v :=
  listMin_le h v (mem_localCands hv)

lemma localEarliest_isSome {z : TzModel} {L v : Int} (hv : civilSecs z v = L) :
    (localEarliest z L).isSome := by
  unfold localEarliest
  apply listMin_isSome
  intro hnil
  have := mem_localCands hv
  rw [hnil] at this
  simp at this

lemma localEarliest_eq_of_civil {z : TzModel} {L u : Int}
    (h : localEarliest z L = some u) : localEarliest z (civilSecs z u) = some u := by
  rw [localEarliest_civil h]; exact h

end Shifty

namespace Shifty

/-! ### ISO week-date round trips -/

lemma mondayOf_def (x : Int) : mondayOf x = x - (x + 3) % 7 := rfl

lemma daysFromCivil_jan4 (y : Int) :
    daysFromCivil y 1 4 = daysFromCivil y 1 1 + 3 := by
  simp only [daysFromCivil]
  norm_num
  omega

/-- The Monday reconstructed by `fromIsoywd` from `d`'s own ISO triple is the
Monday of `d`'s week.  Pure modular arithmetic: Thursdays are `≡ 0 (mod 7)`
in the day numbering, and January 4 sits three days past January 1. -/
lemma iso_week_formula (d : Int) :
    mondayOf (daysFromCivil (isoYearOf d) 1 4) + 7 * (isoWeekOf d - 1) =
      mondayOf d := by
  have h4 := daysFromCivil_jan4 (isoYearOf d)
  have hmod := mondayOf_mod d
  unfold isoWeekOf
  rw [h4, mondayOf_def (daysFromCivil (isoYearOf d) 1 1 + 3)]
  generalize daysFromCivil (isoYearOf d) 1 1 = j at *
  generalize mondayOf d = M at *
  omega

/-- When the resolver feeds `d`'s own ISO `(year, week)` back into
`from_isoywd_opt`, any successfully produced date is the requested weekday
inside `d`'s own Monday-aligned week. -/
lemma curDate_eq {d : Int} {wd : Weekday} {CD : Int}
    (h : fromIsoywd (isoYearOf d) (isoWeekOf d) wd = some CD) :
    CD = mondayOf d + wdNum wd := by
  simp only [fromIsoywd] at h
  split at h
  · simp only [Option.some.injEq] at h
    rw [← h, ← iso_week_formula d]
  · simp at h

lemma fromIsoywd_range {y w : Int} {wd : Weekday} {CD : Int}
    (h : fromIsoywd y w wd = some CD) :
    minDay ≤ CD ∧ CD ≤ maxDay := by
  simp only [fromIsoywd] at h
  split at h
  · rename_i hc
    simp only [Option.some.injEq] at h
    exact ⟨h ▸ hc.2.2.1, h ▸ hc.2.2.2⟩
  · simp at h

lemma fromIsoywd_weekday {y w : Int} {wd : Weekday} {CD : Int}
    (h : fromIsoywd y w wd = some CD) : numFromMonday CD = wdNum wd := by
  simp only [fromIsoywd] at h
  split at h
  · simp only [Option.some.injEq] at h
    have hm := mondayOf_mod (daysFromCivil y 1 4)
    have hn0 := wdNum_nonneg wd
    have hn1 := wdNum_lt wd
    subst h
    unfold numFromMonday
    generalize mondayOf (daysFromCivil y 1 4) = M at *
    omega
  · simp at h

/-- A date that is itself the requested weekday round-trips through
`from_isoywd_opt` on its own ISO triple. -/
lemma fromIsoywd_self {D : Int} {wd : Weekday}
    (hwd : numFromMonday D = wdNum wd) (h1 : minDay ≤ D) (h2 : D ≤ maxDay) :
    fromIsoywd (isoYearOf D) (isoWeekOf D) wd = some D := by
  have hday : mondayOf (daysFromCivil (isoYearOf D) 1 4) +
      7 * (isoWeekOf D - 1) + wdNum wd = D := by
    rw [iso_week_formula D]
    unfold mondayOf
    omega
  unfold fromIsoywd
  rw [hday]
  simp [h1, h2]

lemma checkedSubDays_elim {d n e : Int} (h : checkedSubDays d n = some e) :
    e = d - n ∧ minDay ≤ d - n ∧ d - n ≤ maxDay := by
  unfold checkedSubDays at h
  split at h
  · rename_i hc
    simp only [Option.some.injEq] at h
    exact ⟨h.symm, hc.1, hc.2⟩
  · simp at h

/-! ### Unpacking `prev_start` -/

/-- Case analysis for a successful `prev_start` call: either the
current-week candidate was not after the reference and is returned, or the
resolver fell back to the date seven calendar days earlier. -/
lemma prevStart_elim {ws : WeeklyShift} {dt p : Int}
    (h : prevStart ws dt = some p) :
    ∃ CD,
      fromIsoywd (isoYearOf (dateNaive ws.startTz dt))
          (isoWeekOf (dateNaive ws.startTz dt)) ws.weekday = some CD ∧
      ∃ cur, localEarliest ws.startTz (naiveOf CD ws.start) = some cur ∧
        ((cur ≤ dt ∧ p = cur) ∨
          (dt < cur ∧ minDay ≤ CD - 7 ∧ CD - 7 ≤ maxDay ∧
            localEarliest ws.startTz (naiveOf (CD - 7) ws.start) = some p)) := by
  simp only [prevStart] at h
  cases h1 : fromIsoywd (isoYearOf (dateNaive ws.startTz dt))
      (isoWeekOf (dateNaive ws.startTz dt)) ws.weekday with
  | none => rw [h1] at h; simp at h
  | some CD =>
    rw [h1] at h
    simp only [Option.bind_eq_bind, Option.some_bind] at h
    cases h2 : localEarliest ws.startTz (naiveOf CD ws.start) with
    | none => rw [h2] at h; simp at h
    | some cur =>
      rw [h2] at h
      simp only [Option.some_bind] at h
      refine ⟨CD, by simp [h1], cur, h2, ?_⟩
      by_cases hle : cur ≤ dt
      · rw [if_pos hle] at h
        simp at h
        exact Or.inl ⟨hle, h.symm⟩
      · rw [if_neg hle] at h
        cases h3 : checkedSubDays CD 7 with
        | none => rw [h3] at h; simp at h
        | some PD =>
          rw [h3] at h
          simp only [Option.some_bind] at h
          obtain ⟨hPD, hr1, hr2⟩ := checkedSubDays_elim h3
          subst hPD
          exact Or.inr ⟨by omega, hr1, hr2, h⟩

end Shifty

namespace Shifty

/-! ### Zone behaviour predicates -/

/-- The zone's offsets never decrease over time: no DST fall-back fold. -/
def OffsetMono (z : TzModel) : Prop :=
  ∀ u v : Int, u ≤ v → offsetAt z u ≤ offsetAt z v

/-- Transition instants listed in increasing order. -/
def TzSorted (z : TzModel) : Prop :=
  z.trans.Pairwise fun a b => a.1 < b.1

/-- Offset in force after the whole transition list. -/
def lastOffset (b : Int) : List (Int × Int) → Int
  | [] => b
  | (_, o) :: rest => lastOffset o rest

/-- Local time `L` is not skipped by any DST spring-forward gap: at every
transition from offset `b` to a larger offset `o` at instant `t`, the local
interval `[t + b, t + o)` (which no instant ever shows) avoids `L`. -/
def NotSkipped (L : Int) : Int → List (Int × Int) → Prop
  | _, [] => True
  | b, (t, o) :: rest => ¬(b < o ∧ t + b ≤ L ∧ L < t + o) ∧ NotSkipped L o rest

/-- Predicate `NotSkipped` over the whole zone: the model of "the anchor's civil time
does not fall in a DST gap". -/
def NotSkippedZ (z : TzModel) (L : Int) : Prop := NotSkipped L z.base z.trans

lemma civil_mono {z : TzModel} (hm : OffsetMono z) {u v : Int} (h : u ≤ v) :
    civilSecs z u ≤ civilSecs z v := by
  have := hm u v h
  unfold civilSecs
  omega

lemma civil_strict {z : TzModel} (hm : OffsetMono z) {u v : Int} (h : u < v) :
    civilSecs z u < civilSecs z v := by
  have := hm u v (le_of_lt h)
  unfold civilSecs
  omega

lemma offsetFrom_cons (u b t1 o1 : Int) (rest : List (Int × Int)) :
    offsetFrom u b ((t1, o1) :: rest) =
      if u < t1 then b else offsetFrom u o1 rest := rfl

lemma offsetFrom_snoc (u b t o : Int) (ts : List (Int × Int))
    (hlt : ∀ p ∈ ts, p.1 < t) :
    offsetFrom u b (ts ++ [(t, o)]) = if t ≤ u then o else offsetFrom u b ts := by
  induction ts generalizing b with
  | nil =>
    rw [List.nil_append, offsetFrom_cons]
    show (if u < t then b else offsetFrom u o []) = _
    simp only [offsetFrom]
    split_ifs <;> first | rfl | omega
  | cons p rest ih =>
    obtain ⟨t1, o1⟩ := p
    have ht1 : t1 < t := hlt (t1, o1) (by simp)
    have hrest : ∀ q ∈ rest, q.1 < t := fun q hq => hlt q (by simp [hq])
    rw [List.cons_append, offsetFrom_cons, offsetFrom_cons, ih o1 hrest]
    split_ifs <;> first | rfl | omega

lemma offsetFrom_all_le (u b : Int) (ts : List (Int × Int))
    (h : ∀ p ∈ ts, p.1 ≤ u) : offsetFrom u b ts = lastOffset b ts := by
  induction ts generalizing b with
  | nil => rfl
  | cons p rest ih =>
    obtain ⟨t1, o1⟩ := p
    have ht1 : t1 ≤ u := h (t1, o1) (by simp)
    simp only [offsetFrom, lastOffset]
    rw [if_neg (by omega)]
    exact ih o1 fun q hq => h q (by simp [hq])

lemma notSkipped_snoc {L b t o : Int} {ts : List (Int × Int)}
    (h : NotSkipped L b (ts ++ [(t, o)])) :
    NotSkipped L b ts ∧
      ¬(lastOffset b ts < o ∧ t + lastOffset b ts ≤ L ∧ L < t + o) := by
  induction ts generalizing b with
  | nil => exact ⟨trivial, h.1⟩
  | cons p rest ih =>
    obtain ⟨t1, o1⟩ := p
    obtain ⟨h1, h2⟩ := h
    obtain ⟨h3, h4⟩ := ih h2
    exact ⟨⟨h1, h3⟩, h4⟩

/-- Core reachability fact: with time-ordered transitions, a local time `L`
that no gap skips and that reads no later than the civil time at `C` is
shown at some instant `u ≤ C`. -/
lemma exists_preimage_le (b L : Int) :
    ∀ ts : List (Int × Int), ts.Pairwise (fun a c => a.1 < c.1) →
      NotSkipped L b ts → ∀ C : Int, L ≤ C + offsetFrom C b ts →
      ∃ u, u ≤ C ∧ u + offsetFrom u b ts = L := by
  intro ts
  induction ts using List.reverseRecOn with
  | nil =>
    intro _ _ C hC
    refine ⟨L - b, ?_, ?_⟩
    · simp only [offsetFrom] at hC
      omega
    · simp only [offsetFrom]
      ring
  | append_singleton ts q ih =>
    obtain ⟨t, o⟩ := q
    intro hs hg C hC
    have hsp := List.pairwise_append.mp hs
    have hlt : ∀ p ∈ ts, p.1 < t := fun p hp => hsp.2.2 p hp (t, o) (by simp)
    have hs' : ts.Pairwise (fun a c => a.1 < c.1) := hsp.1
    have hsnoc : ∀ v : Int,
        offsetFrom v b (ts ++ [(t, o)]) = if t ≤ v then o else offsetFrom v b ts :=
      fun v => offsetFrom_snoc v b t o ts hlt
    obtain ⟨hg', hgl⟩ := notSkipped_snoc hg
    by_cases hCt : t ≤ C
    · rw [hsnoc C, if_pos hCt] at hC
      by_cases hLt : t + o ≤ L
      · refine ⟨L - o, by omega, ?_⟩
        rw [hsnoc (L - o), if_pos (by omega)]
        ring
      · have hlast : offsetFrom t b ts = lastOffset b ts :=
          offsetFrom_all_le t b ts fun p hp => le_of_lt (hlt p hp)
        have hIH : L ≤ t + offsetFrom t b ts := by
          rw [hlast]
          by_cases ho : lastOffset b ts < o <;> omega
        obtain ⟨u, hu1, hu2⟩ := ih hs' hg' t hIH
        have hut : u < t := by
          by_contra hnot
          have hu_eq : u = t := by omega
          subst hu_eq
          rw [hlast] at hu2
          omega
        refine ⟨u, by omega, ?_⟩
        rw [hsnoc u, if_neg (by omega)]
        exact hu2
    · rw [hsnoc C, if_neg hCt] at hC
      obtain ⟨u, hu1, hu2⟩ := ih hs' hg' C hC
      refine ⟨u, hu1, ?_⟩
      rw [hsnoc u, if_neg (by omega)]
      exact hu2

/-- With ordered transitions and `L` not in a gap, the earliest instant
showing `L` cannot lie after any instant whose civil reading is `≥ L`. -/
lemma localEarliest_le_of_civil_ge {z : TzModel} {L C p : Int}
    (hs : TzSorted z) (hg : NotSkippedZ z L) (hC : L ≤ civilSecs z C)
    (hp : localEarliest z L = some p) : p ≤ C := by
  obtain ⟨u, hu1, hu2⟩ := exists_preimage_le z.base L z.trans hs hg C hC
  exact le_trans (localEarliest_le hp hu2) hu1

/-- Decomposition of a matching instant: its civil seconds are its civil
date paired with the anchor's time of day, and its civil date falls on the
anchor's weekday. -/
lemma matches_decomp {ws : WeeklyShift} {x : Int} (hm : matchesShift ws x) :
    civilSecs ws.startTz x = naiveOf (dateNaive ws.startTz x) ws.start ∧
      numFromMonday (dateNaive ws.startTz x) = wdNum ws.weekday := by
  obtain ⟨h1, h2⟩ := hm
  refine ⟨?_, (weekdayOf_eq_iff _ _).mp h1⟩
  have hd := civilSecs_decomp ws.startTz x
  unfold timeOfDayIn at h2
  unfold naiveOf
  unfold timeOfDayIn at hd
  omega

end Shifty

namespace Shifty

lemma numFromMonday_congr {a b : Int} (h : numFromMonday a = numFromMonday b) :
    ∃ k, a - b = 7 * k := by
  unfold numFromMonday at h
  exact ⟨(a + 3) / 7 - (b + 3) / 7, by omega⟩

lemma civil_eq_naive {z : TzModel} {u D s : Int} (h : civilSecs z u = naiveOf D s)
    (hs0 : 0 ≤ s) (hs1 : s < 86400) :
    dateNaive z u = D ∧ timeOfDayIn z u = s := by
  have hd := civilSecs_decomp z u
  have h0 := timeOfDayIn_nonneg z u
  have h1 := timeOfDayIn_lt z u
  unfold naiveOf at h
  constructor <;> omega

/-- Claim C2: whenever `prev_start` returns, projecting the result into the
anchor's zone shows exactly the anchor's weekday and time of day. -/
theorem C2_round_trip (ws : WeeklyShift) (r p : Int)
    (hs0 : 0 ≤ ws.start) (hs1 : ws.start < 86400)
    (hp : prevStart ws r = some p) : matchesShift ws p := by
  obtain ⟨CD, hCD, cur, hcur, hcase⟩ := prevStart_elim hp
  have hwd := fromIsoywd_weekday hCD
  rcases hcase with ⟨hle, rfl⟩ | ⟨hgt, hr1, hr2, hprev⟩
  · obtain ⟨hD, hT⟩ := civil_eq_naive (localEarliest_civil hcur) hs0 hs1
    exact ⟨(weekdayOf_eq_iff _ _).mpr (by rw [hD]; exact hwd), hT⟩
  · obtain ⟨hD, hT⟩ := civil_eq_naive (localEarliest_civil hprev) hs0 hs1
    have hwd7 : numFromMonday (CD - 7) = wdNum ws.weekday := by
      unfold numFromMonday at hwd ⊢
      omega
    exact ⟨(weekdayOf_eq_iff _ _).mpr (by rw [hD]; exact hwd7), hT⟩

/-- Claim C2 witness: the repository's own test vector — anchor Monday
12:30 `Etc/UTC`, reference one second before the next occurrence. -/
theorem C2_round_trip_witness :
    prevStart ⟨.mon, 45000, utcTz⟩ (daysFromCivil 2000 1 10 * 86400 + 44999) =
        some (daysFromCivil 2000 1 3 * 86400 + 45000) ∧
      matchesShift ⟨.mon, 45000, utcTz⟩ (daysFromCivil 2000 1 3 * 86400 + 45000) :=
  ⟨by decide,
    C2_round_trip ⟨.mon, 45000, utcTz⟩ (daysFromCivil 2000 1 10 * 86400 + 44999)
      (daysFromCivil 2000 1 3 * 86400 + 45000) (by decide) (by decide) (by decide)⟩

/-- Claim C4: the instant `prev_start` returns is the earliest instant
showing its own civil time — the deliberate tie-break on DST folds, on both
the current-week and the week-prior path. -/
theorem C4_earliest_tiebreak (ws : WeeklyShift) (r p : Int)
    (hp : prevStart ws r = some p) :
    ∀ x : Int, civilSecs ws.startTz x = civilSecs ws.startTz p → p ≤ x := by
  obtain ⟨CD, hCD, cur, hcur, hcase⟩ := prevStart_elim hp
  rcases hcase with ⟨hle, rfl⟩ | ⟨hgt, hr1, hr2, hprev⟩
  · intro x hx
    exact localEarliest_le hcur (by rw [hx]; exact localEarliest_civil hcur)
  · intro x hx
    exact localEarliest_le hprev (by rw [hx]; exact localEarliest_civil hprev)

/-- Claim C4 witness: the 2000-10-29 Europe/London fall-back fold.  Sunday
01:30 local occurs at 00:30Z (BST) and 01:30Z (GMT); `prev_start` returns
00:30Z and the theorem puts it at or before the duplicate 01:30Z. -/
theorem C4_earliest_tiebreak_witness :
    prevStart ⟨.sun, 5400, londonTz⟩ (daysFromCivil 2000 10 29 * 86400 + 5400) =
        some (daysFromCivil 2000 10 29 * 86400 + 1800) ∧
      daysFromCivil 2000 10 29 * 86400 + 1800 ≤
        daysFromCivil 2000 10 29 * 86400 + 5400 :=
  ⟨by decide,
    C4_earliest_tiebreak ⟨.sun, 5400, londonTz⟩
      (daysFromCivil 2000 10 29 * 86400 + 5400)
      (daysFromCivil 2000 10 29 * 86400 + 1800) (by decide)
      (daysFromCivil 2000 10 29 * 86400 + 5400) (by decide)⟩

/-- Claim C5: querying `prev_start` at its own result returns that result
unchanged. -/
theorem C5_idempotent (ws : WeeklyShift) (r p : Int)
    (hs0 : 0 ≤ ws.start) (hs1 : ws.start < 86400)
    (hp : prevStart ws r = some p) : prevStart ws p = some p := by
  obtain ⟨CD, hCD, cur, hcur, hcase⟩ := prevStart_elim hp
  have hwd := fromIsoywd_weekday hCD
  have hrange := fromIsoywd_range hCD
  rcases hcase with ⟨hle, rfl⟩ | ⟨hgt, hr1, hr2, hprev⟩
  · obtain ⟨hD, _⟩ := civil_eq_naive (localEarliest_civil hcur) hs0 hs1
    have hself : fromIsoywd (isoYearOf CD) (isoWeekOf CD) ws.weekday = some CD :=
      fromIsoywd_self hwd hrange.1 hrange.2
    simp only [prevStart]
    rw [hD, hself]
    simp only [Option.bind_eq_bind, Option.some_bind]
    rw [hcur]
    simp only [Option.some_bind]
    rw [if_pos (le_refl _)]
    rfl
  · obtain ⟨hD, _⟩ := civil_eq_naive (localEarliest_civil hprev) hs0 hs1
    have hwd7 : numFromMonday (CD - 7) = wdNum ws.weekday := by
      unfold numFromMonday at hwd ⊢
      omega
    have hself : fromIsoywd (isoYearOf (CD - 7)) (isoWeekOf (CD - 7)) ws.weekday =
        some (CD - 7) := fromIsoywd_self hwd7 hr1 hr2
    simp only [prevStart]
    rw [hD, hself]
    simp only [Option.bind_eq_bind, Option.some_bind]
    rw [hprev]
    simp only [Option.some_bind]
    rw [if_pos (le_refl p)]
    rfl

/-- Claim C5 witness: re-querying at the resolved Monday 12:30 UTC instant
returns it again. -/
theorem C5_idempotent_witness :
    prevStart ⟨.mon, 45000, utcTz⟩ (daysFromCivil 2000 1 3 * 86400 + 45000) =
      some (daysFromCivil 2000 1 3 * 86400 + 45000) :=
  C5_idempotent ⟨.mon, 45000, utcTz⟩ (daysFromCivil 2000 1 10 * 86400 + 44999)
    (daysFromCivil 2000 1 3 * 86400 + 45000) (by decide) (by decide) (by decide)

end Shifty

namespace Shifty

/-- Claim C1 (amended): the result of `prev_start` never exceeds the
reference provided the zone's transitions are time-ordered and the anchor's
week-prior civil time is not inside a DST gap; and in zones whose offsets
never decrease (no DST fold) the result is moreover the unique latest
matching instant — no instant in `(result, reference]` projects to the
anchor's weekday and time of day.  With a fold the uniqueness clause fails
(the result is only the earliest of the fold duplicates; see the
counterexample). -/
theorem C1_latest_occurrence (ws : WeeklyShift) (dt p : Int)
    (hs0 : 0 ≤ ws.start) (hs1 : ws.start < 86400)
    (hp : prevStart ws dt = some p) :
    (TzSorted ws.startTz →
      NotSkippedZ ws.startTz
        (naiveOf (mondayOf (dateNaive ws.startTz dt) + wdNum ws.weekday - 7)
          ws.start) →
      p ≤ dt) ∧
    (OffsetMono ws.startTz →
      p ≤ dt ∧ ∀ x : Int, p < x → x ≤ dt → ¬ matchesShift ws x) := by
  obtain ⟨CD, hCD, cur, hcur, hcase⟩ := prevStart_elim hp
  have hCDeq : CD = mondayOf (dateNaive ws.startTz dt) + wdNum ws.weekday :=
    curDate_eq hCD
  have hwdCD := fromIsoywd_weekday hCD
  have hMon : mondayOf (dateNaive ws.startTz dt) =
      dateNaive ws.startTz dt - numFromMonday (dateNaive ws.startTz dt) := rfl
  have hn0 := numFromMonday_nonneg (dateNaive ws.startTz dt)
  have hn1 := numFromMonday_lt (dateNaive ws.startTz dt)
  have hw0 := wdNum_nonneg ws.weekday
  have hw1 := wdNum_lt ws.weekday
  have hdec := civilSecs_decomp ws.startTz dt
  have ht0 := timeOfDayIn_nonneg ws.startTz dt
  have ht1 := timeOfDayIn_lt ws.startTz dt
  constructor
  · intro hsort hgap
    rcases hcase with ⟨hle, rfl⟩ | ⟨hgt, hr1, hr2, hprev⟩
    · exact hle
    · have hgap' : NotSkippedZ ws.startTz (naiveOf (CD - 7) ws.start) := by
        rw [hCDeq]
        exact hgap
      have hL : naiveOf (CD - 7) ws.start ≤ civilSecs ws.startTz dt := by
        unfold naiveOf
        omega
      exact localEarliest_le_of_civil_ge hsort hgap' hL hprev
  · intro hmono
    have hple : p ≤ dt := by
      rcases hcase with ⟨hle, rfl⟩ | ⟨hgt, hr1, hr2, hprev⟩
      · exact hle
      · by_contra hnot
        have h1 : civilSecs ws.startTz dt ≤ civilSecs ws.startTz p :=
          civil_mono hmono (by omega)
        have h2 := localEarliest_civil hprev
        unfold naiveOf at h2
        omega
    refine ⟨hple, ?_⟩
    intro x hpx hxdt hmx
    obtain ⟨hxciv, hxwd⟩ := matches_decomp hmx
    unfold naiveOf at hxciv
    have hstrict : civilSecs ws.startTz p < civilSecs ws.startTz x :=
      civil_strict hmono hpx
    have hxle : civilSecs ws.startTz x ≤ civilSecs ws.startTz dt :=
      civil_mono hmono hxdt
    obtain ⟨k, hk⟩ := numFromMonday_congr (hxwd.trans hwdCD.symm)
    rcases hcase with ⟨hle, rfl⟩ | ⟨hgt, hr1, hr2, hprev⟩
    · have hpv := localEarliest_civil hcur
      unfold naiveOf at hpv
      omega
    · have hpv := localEarliest_civil hprev
      unfold naiveOf at hpv
      have hDxge : CD ≤ dateNaive ws.startTz x := by omega
      rcases eq_or_lt_of_le hDxge with hEq | hLt
      · have hxpre : civilSecs ws.startTz x = naiveOf CD ws.start := by
          unfold naiveOf
          omega
        have := localEarliest_le hcur hxpre
        omega
      · omega

/-- Claim C1 counterexample: anchor Sunday 01:30 Europe/London, reference
2000-10-29T01:30:00Z — the second (GMT) pass of the fall-back fold.
`prev_start` returns 2000-10-29T00:30:00Z, strictly before the reference,
yet the reference itself also projects to Sunday 01:30 in the zone: an
instant `x` with `result < x ≤ r` showing the anchor's civil time exists,
refuting the claimed uniqueness of the latest occurrence. -/
theorem C1_counterexample :
    prevStart ⟨.sun, 5400, londonTz⟩ (daysFromCivil 2000 10 29 * 86400 + 5400) =
        some (daysFromCivil 2000 10 29 * 86400 + 1800) ∧
      daysFromCivil 2000 10 29 * 86400 + 1800 <
        daysFromCivil 2000 10 29 * 86400 + 5400 ∧
      matchesShift ⟨.sun, 5400, londonTz⟩
        (daysFromCivil 2000 10 29 * 86400 + 5400) := by
  decide

/-- Claim C1 witness: anchor Monday 12:30 `Etc/UTC` (a fold-free,
gap-free zone), reference one second before the next occurrence. -/
theorem C1_latest_occurrence_witness :
    prevStart ⟨.mon, 45000, utcTz⟩ (daysFromCivil 2000 1 10 * 86400 + 44999) =
        some (daysFromCivil 2000 1 3 * 86400 + 45000) ∧
      daysFromCivil 2000 1 3 * 86400 + 45000 ≤
        daysFromCivil 2000 1 10 * 86400 + 44999 ∧
      ¬ matchesShift ⟨.mon, 45000, utcTz⟩
        (daysFromCivil 2000 1 10 * 86400 + 44999) := by
  have h := C1_latest_occurrence ⟨.mon, 45000, utcTz⟩
    (daysFromCivil 2000 1 10 * 86400 + 44999)
    (daysFromCivil 2000 1 3 * 86400 + 45000) (by decide) (by decide) (by decide)
  have h2 := h.2 fun u v _ => le_refl 0
  exact ⟨by decide, h2.1, h2.2 _ (by decide) (le_refl _)⟩

/-- Claim C3: whenever the current-week candidate lies strictly after the
reference, `prev_start` returns the earliest-instant zone resolution of the
candidate's civil date minus seven calendar days (calendar subtraction
precedes zone resolution); and that differs from subtracting a fixed 7×24h
from the candidate instant, witnessed across the 2000 Europe/London
spring-forward: candidate Sunday 2000-03-26 12:00 BST resolves to 11:00Z,
minus 604800 s gives 2000-03-19T11:00:00Z, while `prev_start` returns
2000-03-19T12:00:00Z (Sunday 12:00 GMT). -/
theorem C3_calendar_subtraction :
    (∀ (ws : WeeklyShift) (dt CD cur PD : Int),
      fromIsoywd (isoYearOf (dateNaive ws.startTz dt))
          (isoWeekOf (dateNaive ws.startTz dt)) ws.weekday = some CD →
      localEarliest ws.startTz (naiveOf CD ws.start) = some cur →
      dt < cur →
      checkedSubDays CD 7 = some PD →
      prevStart ws dt = localEarliest ws.startTz (naiveOf PD ws.start)) ∧
    (prevStart ⟨.sun, 43200, londonTz⟩ (daysFromCivil 2000 3 22 * 86400) =
        some (daysFromCivil 2000 3 19 * 86400 + 43200) ∧
      localEarliest londonTz (naiveOf (daysFromCivil 2000 3 26) 43200) =
        some (daysFromCivil 2000 3 26 * 86400 + 39600) ∧
      daysFromCivil 2000 3 19 * 86400 + 43200 ≠
        daysFromCivil 2000 3 26 * 86400 + 39600 - 604800) := by
  constructor
  · intro ws dt CD cur PD hCD hcur hlt hsub
    simp only [prevStart]
    rw [hCD]
    simp only [Option.bind_eq_bind, Option.some_bind]
    rw [hcur]
    simp only [Option.some_bind]
    rw [if_neg (by omega), hsub]
    simp only [Option.some_bind]
  · exact ⟨by decide, by decide, by decide⟩

/-- Claim C3 witness: the general clause applied at the London
spring-forward instance. -/
theorem C3_calendar_subtraction_witness :
    prevStart ⟨.sun, 43200, londonTz⟩ (daysFromCivil 2000 3 22 * 86400) =
      localEarliest londonTz (naiveOf (daysFromCivil 2000 3 19) 43200) :=
  C3_calendar_subtraction.1 ⟨.sun, 43200, londonTz⟩
    (daysFromCivil 2000 3 22 * 86400) (daysFromCivil 2000 3 26)
    (daysFromCivil 2000 3 26 * 86400 + 39600) (daysFromCivil 2000 3 19)
    (by decide) (by decide) (by decide) (by decide)

/-- Claim C8 (amended): with a valid ISO triple for the reference's civil
date, no DST gap at the anchor's civil time on the current-week date or on
the date seven days earlier, and — the condition the original claim is
missing — the week-prior date still representable, every partial step of
`prev_start` succeeds. -/
theorem C8_total_on_domain (ws : WeeklyShift) (dt CD : Int)
    (hCD : fromIsoywd (isoYearOf (dateNaive ws.startTz dt))
        (isoWeekOf (dateNaive ws.startTz dt)) ws.weekday = some CD)
    (hcur : (localEarliest ws.startTz (naiveOf CD ws.start)).isSome)
    (hprev : (localEarliest ws.startTz (naiveOf (CD - 7) ws.start)).isSome)
    (hrange : minDay ≤ CD - 7) :
    (prevStart ws dt).isSome := by
  obtain ⟨cur, hcur'⟩ := Option.isSome_iff_exists.mp hcur
  obtain ⟨pv, hprev'⟩ := Option.isSome_iff_exists.mp hprev
  have hmax := (fromIsoywd_range hCD).2
  simp only [prevStart]
  rw [hCD]
  simp only [Option.bind_eq_bind, Option.some_bind]
  rw [hcur']
  simp only [Option.some_bind]
  by_cases h : cur ≤ dt
  · rw [if_pos h]
    simp
  · rw [if_neg h]
    have hsub : checkedSubDays CD 7 = some (CD - 7) := by
      unfold checkedSubDays
      rw [if_pos ⟨hrange, by omega⟩]
    rw [hsub]
    simp only [Option.some_bind]
    rw [hprev']
    simp

/-- Claim C8 counterexample: at the first representable week (reference at
civil `-262143-01-01T00:00:00` in `Etc/UTC`, anchor at 12:00 on that day's
weekday) the claimed preconditions all hold — the ISO triple is valid and
`Etc/UTC` has no DST gaps, so both `earliest()` resolutions are `Some` —
yet the current-week candidate exceeds the reference, `checked_sub_days`
leaves the representable range, and `prev_start` hits its `unwrap` panic
(modelled as `none`). -/
theorem C8_counterexample :
    fromIsoywd (isoYearOf (dateNaive utcTz (minDay * 86400)))
        (isoWeekOf (dateNaive utcTz (minDay * 86400))) (weekdayOf minDay) =
        some minDay ∧
      (localEarliest utcTz (naiveOf minDay 43200)).isSome ∧
      (localEarliest utcTz (naiveOf (minDay - 7) 43200)).isSome ∧
      prevStart ⟨weekdayOf minDay, 43200, utcTz⟩ (minDay * 86400) = none := by
  decide

/-- Claim C8 witness: an ordinary in-range reference where the amended
preconditions hold and `prev_start` indeed succeeds. -/
theorem C8_total_on_domain_witness :
    (prevStart ⟨.mon, 45000, utcTz⟩
      (daysFromCivil 2000 1 10 * 86400 + 44999)).isSome :=
  C8_total_on_domain ⟨.mon, 45000, utcTz⟩
    (daysFromCivil 2000 1 10 * 86400 + 44999) (daysFromCivil 2000 1 10)
    (by decide) (by decide) (by decide) (by decide)

end Shifty

namespace Shifty

/-! ### Parsing (the `FromStr` implementations) -/

/-- The error kinds of `WeeklyShiftParseError` (the carried causes are not
modelled, only the kind callers branch on). -/
inductive WeeklyShiftParseError where
  | weekday
  | startTime
  | timeZone
  | invalidWeeklyShift
  deriving DecidableEq, Repr

instance {ε α : Type} [DecidableEq ε] [DecidableEq α] :
    DecidableEq (Except ε α) := fun a b =>
  match a, b with
  | .ok x, .ok y =>
    if h : x = y then isTrue (by rw [h]) else isFalse (by simp [h])
  | .error e, .error f =>
    if h : e = f then isTrue (by rw [h]) else isFalse (by simp [h])
  | .ok _, .error _ => isFalse (by simp)
  | .error _, .ok _ => isFalse (by simp)

/-- Split a character list at every occurrence of `sep`, keeping empty
pieces — the semantics of Rust `str::split(char)`; splitting the empty
string yields one empty piece. -/
def splitOnChar (sep : Char) : List Char → List (List Char)
  | [] => [[]]
  | c :: rest =>
    let r := splitOnChar sep rest
    if c = sep then [] :: r
    else
      match r with
      | [] => [[c]]
      | g :: gs => (c :: g) :: gs

/-- Rust `s.split(' ')` as a list of strings. -/
def splitSp (s : String) : List String :=
  (splitOnChar ' ' s.data).map fun cs => String.mk cs

/-- ASCII lower-casing. -/
def lowerChar (c : Char) : Char :=
  if 'A' ≤ c ∧ c ≤ 'Z' then Char.ofNat (c.toNat + 32) else c

/-- ASCII lower-casing of a string. -/
def lowerStr (s : String) : String := String.mk (s.data.map lowerChar)

/-- chrono `Weekday::from_str`: case-insensitive long or three-letter
English weekday names. -/
def parseWeekday (s : String) : Option Weekday :=
  let l := lowerStr s
  if l = "monday" ∨ l = "mon" then some .mon
  else if l = "tuesday" ∨ l = "tue" then some .tue
  else if l = "wednesday" ∨ l = "wed" then some .wed
  else if l = "thursday" ∨ l = "thu" then some .thu
  else if l = "friday" ∨ l = "fri" then some .fri
  else if l = "saturday" ∨ l = "sat" then some .sat
  else if l = "sunday" ∨ l = "sun" then some .sun
  else none

/-- One or two ASCII digits as an integer. -/
def digitsVal : List Char → Option Int
  | [c] =>
    if '0' ≤ c ∧ c ≤ '9' then some ((c.toNat : Int) - 48) else none
  | [c, d] =>
    if ('0' ≤ c ∧ c ≤ '9') ∧ ('0' ≤ d ∧ d ≤ '9') then
      some (10 * ((c.toNat : Int) - 48) + ((d.toNat : Int) - 48))
    else none
  | _ => none

/-- chrono `NaiveTime::from_str` at whole-second precision: `H:M` or
`H:M:S`, seconds defaulting to zero when absent (fractional seconds are
outside this model), yielding seconds since midnight. -/
def parseTime (s : String) : Option Int :=
  match splitOnChar ':' s.data with
  | [h, m] => do
    let hv ← digitsVal h
    let mv ← digitsVal m
    if hv < 24 ∧ mv < 60 then some (3600 * hv + 60 * mv) else none
  | [h, m, sec] => do
    let hv ← digitsVal h
    let mv ← digitsVal m
    let sv ← digitsVal sec
    if hv < 24 ∧ mv < 60 ∧ sv < 60 then some (3600 * hv + 60 * mv + sv)
    else none
  | _ => none

/-- chrono-tz `Tz::from_str`, restricted to the zone identifiers the
repository exercises (a fragment of the full IANA table). -/
def parseTz (s : String) : Option TzModel :=
  if s = "Etc/UTC" ∨ s = "UTC" then some utcTz
  else if s = "Europe/London" then some londonTz
  else if s = "CET" then some cetTz
  else if s = "EST" then some estTz
  else none

/-- Model of `WeeklyShift::from_str`: three `next()` calls on `split(' ')`, a missing
token reporting `InvalidWeeklyShift` and each token parser's failure
reporting its own error kind; tokens past the third are never requested. -/
def parseShift (s : String) : Except WeeklyShiftParseError WeeklyShift :=
  let toks := splitSp s
  match toks[0]? with
  | none => .error .invalidWeeklyShift
  | some t0 =>
    match parseWeekday t0 with
    | none => .error .weekday
    | some wd =>
      match toks[1]? with
      | none => .error .invalidWeeklyShift
      | some t1 =>
        match parseTime t1 with
        | none => .error .startTime
        | some tv =>
          match toks[2]? with
          | none => .error .invalidWeeklyShift
          | some t2 =>
            match parseTz t2 with
            | none => .error .timeZone
            | some z => .ok ⟨wd, tv, z⟩

/-- Strip one trailing carriage return. -/
def stripCR (cs : List Char) : List Char :=
  if cs.getLast? = some '\r' then cs.dropLast else cs

/-- Rust `str::lines`: split at `'\n'`, dropping the empty piece a trailing
newline leaves, and stripping a `'\r'` from the end of each
newline-terminated piece (the final unterminated piece keeps its `'\r'`). -/
def rustLinesChars (cs : List Char) : List (List Char) :=
  if cs = [] then []
  else
    let ps := splitOnChar '\n' cs
    if cs.getLast? = some '\n' then ps.dropLast.map stripCR
    else ps.dropLast.map stripCR ++ [ps.getLastD []]

/-- Rust `s.lines()` as a list of strings. -/
def rustLines (s : String) : List String :=
  (rustLinesChars s.data).map fun cs => String.mk cs

/-- The `WeeklyShiftPattern` aggregate. -/
structure WeeklyShiftPattern where
  shifts : List WeeklyShift
  deriving DecidableEq, Repr

/-- Model of `collect::<Result<Vec<_>, _>>` over the parsed lines: sequential, the
first error short-circuits with no partial result. -/
def collectShifts :
    List String → Except WeeklyShiftParseError (List WeeklyShift)
  | [] => .ok []
  | l :: rest =>
    match parseShift l with
    | .error e => .error e
    | .ok sh =>
      match collectShifts rest with
      | .error e => .error e
      | .ok shs => .ok (sh :: shs)

/-- Model of `WeeklyShiftPattern::from_str`: parse every line of the blob. -/
def parsePattern (s : String) :
    Except WeeklyShiftParseError WeeklyShiftPattern :=
  (collectShifts (rustLines s)).map WeeklyShiftPattern.mk

end Shifty

namespace Shifty

lemma collectShifts_ok_forall :
    ∀ {ls : List String} {shs : List WeeklyShift},
      collectShifts ls = .ok shs →
      List.Forall₂ (fun l sh => parseShift l = .ok sh) ls shs := by
  intro ls
  induction ls with
  | nil =>
    intro shs h
    simp only [collectShifts, Except.ok.injEq] at h
    rw [← h]
    exact List.Forall₂.nil
  | cons l rest ih =>
    intro shs h
    simp only [collectShifts] at h
    cases hp : parseShift l with
    | error e => rw [hp] at h; simp at h
    | ok sh =>
      rw [hp] at h
      cases hr : collectShifts rest with
      | error e => rw [hr] at h; simp at h
      | ok shs' =>
        rw [hr] at h
        simp only [Except.ok.injEq] at h
        rw [← h]
        exact List.Forall₂.cons hp (ih hr)

lemma collectShifts_error :
    ∀ {ls : List String} {e : WeeklyShiftParseError},
      collectShifts ls = .error e →
      ∃ pre line post, ls = pre ++ line :: post ∧
        parseShift line = .error e ∧ ∀ l ∈ pre, ∃ sh, parseShift l = .ok sh := by
  intro ls
  induction ls with
  | nil => intro e h; simp [collectShifts] at h
  | cons l rest ih =>
    intro e h
    simp only [collectShifts] at h
    cases hp : parseShift l with
    | error e' =>
      rw [hp] at h
      simp only [Except.error.injEq] at h
      exact ⟨[], l, rest, by simp, by rw [hp, h], by simp⟩
    | ok sh =>
      rw [hp] at h
      cases hr : collectShifts rest with
      | error e' =>
        rw [hr] at h
        simp only [Except.error.injEq] at h
        obtain ⟨pre, line, post, hsplit, hline, hpre⟩ := ih (h ▸ hr)
        refine ⟨l :: pre, line, post, by simp [hsplit], hline, ?_⟩
        intro l' hl'
        rcases hl' with _ | hl'
        · exact ⟨sh, hp⟩
        · exact hpre l' (by assumption)
      | ok shs' => rw [hr] at h; simp at h

/-- Claim C6: the multi-line pattern parse handles lines independently and
in input order — a successful parse pairs the lines with the resulting
shifts one-to-one in order, and a failing parse returns the error of the
first failing line, every earlier line parsing cleanly, with no partial
pattern. -/
theorem C6_pattern_lines (s : String) :
    (∀ pat, parsePattern s = .ok pat →
      List.Forall₂ (fun l sh => parseShift l = .ok sh)
        (rustLines s) pat.shifts) ∧
    (∀ e, parsePattern s = .error e →
      ∃ pre line post, rustLines s = pre ++ line :: post ∧
        parseShift line = .error e ∧
        ∀ l ∈ pre, ∃ sh, parseShift l = .ok sh) := by
  constructor
  · intro pat h
    unfold parsePattern at h
    cases hc : collectShifts (rustLines s) with
    | error e => rw [hc] at h; simp [Except.map] at h
    | ok shs =>
      rw [hc] at h
      simp only [Except.map, Except.ok.injEq] at h
      rw [← h]
      exact collectShifts_ok_forall hc
  · intro e h
    unfold parsePattern at h
    cases hc : collectShifts (rustLines s) with
    | error e' =>
      rw [hc] at h
      simp only [Except.map, Except.error.injEq] at h
      exact collectShifts_error (h ▸ hc)
    | ok shs => rw [hc] at h; simp [Except.map] at h

/-- Claim C6 witness: a two-line blob parses into exactly its two anchors
in order. -/
theorem C6_pattern_lines_witness :
    List.Forall₂ (fun l sh => parseShift l = .ok sh)
      (rustLines "Monday 12:30 Etc/UTC\nSunday 01:30 Europe/London")
      [⟨.mon, 45000, utcTz⟩, ⟨.sun, 5400, londonTz⟩] :=
  (C6_pattern_lines "Monday 12:30 Etc/UTC\nSunday 01:30 Europe/London").1
    ⟨[⟨.mon, 45000, utcTz⟩, ⟨.sun, 5400, londonTz⟩]⟩ (by decide)

/-- Claim C7 counterexample: the empty line.  Rust's `split(' ')` yields a
single empty token for the empty string, so the weekday parser fails first
and the error is the `Weekday` kind, not the claimed
`InvalidWeeklyShift`/MalformedLine kind. -/
theorem C7_counterexample :
    (splitSp "").length < 3 ∧
      parseShift "" = .error .weekday ∧
      parseShift "" ≠ .error .invalidWeeklyShift := by
  decide

/-- Claim C7 (amended): a line with fewer than three space-separated tokens
never parses; it reports `InvalidWeeklyShift` (MalformedLine) when every
present token parses, while a failing present token reports that token's
typed error first — in particular the empty line reports the `Weekday`
kind, because splitting the empty string yields one empty token.
Unrecognized weekday, time, and zone tokens yield exactly their typed
errors; parsing is total (never panics). -/
theorem C7_malformed_lines (s : String) :
    ((splitSp s).length < 3 → ∀ res, parseShift s ≠ .ok res) ∧
    (∀ t0, splitSp s = [t0] → (parseWeekday t0).isSome →
      parseShift s = .error .invalidWeeklyShift) ∧
    (∀ t0 t1, splitSp s = [t0, t1] → (parseWeekday t0).isSome →
      (parseTime t1).isSome → parseShift s = .error .invalidWeeklyShift) ∧
    (∀ t0, (splitSp s)[0]? = some t0 → parseWeekday t0 = none →
      parseShift s = .error .weekday) ∧
    (∀ t0 wd t1, (splitSp s)[0]? = some t0 → parseWeekday t0 = some wd →
      (splitSp s)[1]? = some t1 → parseTime t1 = none →
      parseShift s = .error .startTime) ∧
    (∀ t0 wd t1 tv t2, (splitSp s)[0]? = some t0 → parseWeekday t0 = some wd →
      (splitSp s)[1]? = some t1 → parseTime t1 = some tv →
      (splitSp s)[2]? = some t2 → parseTz t2 = none →
      parseShift s = .error .timeZone) := by
  refine ⟨?_, ?_, ?_, ?_, ?_, ?_⟩
  · intro hlen res
    rcases hsp : splitSp s with _ | ⟨t0, _ | ⟨t1, _ | ⟨t2, rest2⟩⟩⟩
    · simp [parseShift, hsp]
    · simp only [parseShift, hsp]
      cases hw : parseWeekday t0 <;> simp [hw]
    · simp only [parseShift, hsp]
      cases hw : parseWeekday t0 <;> simp [hw]
      cases ht : parseTime t1 <;> simp [ht]
    · rw [hsp] at hlen
      simp at hlen
      omega
  · intro t0 hsp hw
    obtain ⟨wd, hw'⟩ := Option.isSome_iff_exists.mp hw
    simp only [parseShift, hsp]
    simp [hw']
  · intro t0 t1 hsp hw ht
    obtain ⟨wd, hw'⟩ := Option.isSome_iff_exists.mp hw
    obtain ⟨tv, ht'⟩ := Option.isSome_iff_exists.mp ht
    simp only [parseShift, hsp]
    simp [hw', ht']
  · intro t0 h0 hw
    simp only [parseShift]
    simp [h0, hw]
  · intro t0 wd t1 h0 hw h1 ht
    simp only [parseShift]
    simp [h0, hw, h1, ht]
  · intro t0 wd t1 tv t2 h0 hw h1 ht h2 hz
    simp only [parseShift]
    simp [h0, hw, h1, ht, h2, hz]

/-- Claim C7 witness: a two-token line, an unrecognized weekday, an
unrecognized time, and an unrecognized zone, each with its typed error. -/
theorem C7_malformed_lines_witness :
    parseShift "Monday 12:30" = .error .invalidWeeklyShift ∧
      parseShift "Bog 12:30 Etc/UTC" = .error .weekday ∧
      parseShift "Monday 99:99 Etc/UTC" = .error .startTime ∧
      parseShift "Monday 12:30 Mars/Olympus" = .error .timeZone :=
  ⟨(C7_malformed_lines "Monday 12:30").2.2.1 "Monday" "12:30"
      (by decide) (by decide) (by decide),
    (C7_malformed_lines "Bog 12:30 Etc/UTC").2.2.2.1 "Bog"
      (by decide) (by decide),
    (C7_malformed_lines "Monday 99:99 Etc/UTC").2.2.2.2.1 "Monday" .mon "99:99"
      (by decide) (by decide) (by decide) (by decide),
    (C7_malformed_lines "Monday 12:30 Mars/Olympus").2.2.2.2.2 "Monday" .mon
      "12:30" 45000 "Mars/Olympus"
      (by decide) (by decide) (by decide) (by decide) (by decide) (by decide)⟩

/-- Claim C9: when the first three tokens parse as weekday, time, and zone,
the line parses into exactly those components; tokens after the third are
never inspected, so trailing extras are silently ignored. -/
theorem C9_extra_tokens (s t0 : String) (wd : Weekday) (t1 : String)
    (tv : Int) (t2 : String) (z : TzModel)
    (h0 : (splitSp s)[0]? = some t0) (hw : parseWeekday t0 = some wd)
    (h1 : (splitSp s)[1]? = some t1) (ht : parseTime t1 = some tv)
    (h2 : (splitSp s)[2]? = some t2) (hz : parseTz t2 = some z) :
    parseShift s = .ok ⟨wd, tv, z⟩ := by
  simp only [parseShift]
  simp [h0, hw, h1, ht, h2, hz]

/-- Claim C9 witness: a line with a fourth, ignored token parses. -/
theorem C9_extra_tokens_witness :
    parseShift "Monday 12:30 Europe/London extra" =
      .ok ⟨.mon, 45000, londonTz⟩ :=
  C9_extra_tokens "Monday 12:30 Europe/London extra" "Monday" .mon "12:30"
    45000 "Europe/London" londonTz
    (by decide) (by decide) (by decide) (by decide) (by decide) (by decide)

/-- Claim C10: parsing the empty string yields the empty pattern — no
error for absent input, since `lines()` of the empty string is empty. -/
theorem C10_empty_pattern : parsePattern "" = .ok ⟨[]⟩ := by decide

end Shifty
